import Mathlib

/-!
Verification development for the stl_reader repository (`stl_reader.h`).

The C++ source is shallowly embedded here:

* Coordinates are modelled as `Int` triples (`V3`).  The source's
  deduplication logic only ever uses `operator==`, `operator!=` and the
  lexicographic `operator<` on coordinate triples, so any linearly ordered
  numeric carrier is a faithful carrier for these claims; none of the claims
  under consideration depends on floating-point rounding or NaN behaviour.
* `std::vector` becomes `List`; out-of-bounds element accesses (undefined
  behaviour in C++) are made explicit through `Option`-returning reads and
  writes (`setOpt`, `·[·]?`).
* `std::sort` (an unspecified comparison sort whose contract is "sorted
  permutation w.r.t. `operator<`") is modelled by `List.insertionSort` over
  the preorder `cwiLe a b := ¬ b < a`; ties among component-equal
  coordinates are observably irrelevant (they carry equal `data`).
* Exceptions thrown through `READ_STL_THROW` / `READ_STL_COND_THROW`
  become an explicit error result (`RRes.err`); reaching C++ undefined
  behaviour becomes `RRes.oob`.
* File contents are abstracted at the level the readers consume them:
  text files as the sequence of buffers `getline` yields (the extraction
  loop's token buffer — which the source deliberately reuses across lines
  without clearing — is modelled explicitly in the parser state), binary
  files as a header-availability flag, an optional triangle-count field and
  a list of complete 50-byte triangle records.  `atof` (whose numeric text
  semantics the repository does not constrain) is an abstract parameter of
  the text reader.
-/

/-- A 3d coordinate triple (the `number_t data[3]` of `CoordWithIndex`). -/
structure V3 where
  x : Int
  y : Int
  z : Int
deriving DecidableEq

/-- `stl_reader_impl::CoordWithIndex`: a coordinate triple plus the index of
the raw corner it came from. -/
structure CoordWithIndex where
  data : V3
  index : Nat
deriving DecidableEq

/-- Source `operator<` (lines 196-201): lexicographic comparison of the
coordinate data, ignoring `index`. -/
def cwiLtB (a c : CoordWithIndex) : Bool :=
  decide (a.data.x < c.data.x)
    || ((a.data.x == c.data.x) && decide (a.data.y < c.data.y))
    || ((a.data.x == c.data.x) && (a.data.y == c.data.y)
          && decide (a.data.z < c.data.z))

/-- Source `operator==` (lines 186-189): component-wise equality of the
coordinate data, ignoring `index`. -/
def cwiEqB (a c : CoordWithIndex) : Bool :=
  (c.data.x == a.data.x) && (c.data.y == a.data.y) && (c.data.z == a.data.z)

/-- Source `operator!=` (lines 191-194). -/
def cwiNeB (a c : CoordWithIndex) : Bool :=
  (c.data.x != a.data.x) || (c.data.y != a.data.y) || (c.data.z != a.data.z)

/-- The ordering `std::sort` establishes between adjacent elements:
`a` may precede `b` iff `¬ (b < a)`. -/
def cwiLe (a b : CoordWithIndex) : Prop := cwiLtB b a = false

instance : DecidableRel cwiLe := fun a b =>
  inferInstanceAs (Decidable (cwiLtB b a = false))

/-- Strict lexicographic order on coordinate triples, as a proposition. -/
def vlt (a b : V3) : Prop :=
  a.x < b.x ∨ (a.x = b.x ∧ (a.y < b.y ∨ (a.y = b.y ∧ a.z < b.z)))

instance : DecidableRel vlt := fun a b => by
  unfold vlt; infer_instance

/-- Sorting step of `RemoveDoubles` (line 222, `sort(begin, end)`). -/
def sortCoords (l : List CoordWithIndex) : List CoordWithIndex :=
  List.insertionSort cwiLe l

/-- Write at an index of a list; `none` on an out-of-bounds write (which is
undefined behaviour for `std::vector::operator[]`). -/
def setOpt {α : Type} : List α → Nat → α → Option (List α)
  | [], _, _ => none
  | _ :: t, 0, v => some (v :: t)
  | h :: t, i + 1, v => (setOpt t i v).map (fun t' => h :: t')

/-- Lines 224-229 of the source: `numUnique` starts at `1` and is bumped for
every adjacent pair of distinct entries in the sorted coordinate list. -/
def countRuns (prev : CoordWithIndex) : List CoordWithIndex → Nat
  | [] => 0
  | c :: rest => (if cwiNeB c prev then 1 else 0) + countRuns c rest

/-- `numUnique` as computed by lines 224-229 on a (sorted) coordinate list. -/
def numUniqueOf : List CoordWithIndex → Nat
  | [] => 1
  | c :: rest => 1 + countRuns c rest

/-- Main scan of `RemoveDoubles` (lines 241-250): walk the sorted list;
whenever the current entry differs from its predecessor append its triple to
the unique-coordinate buffer and bump `curInd`; in both cases record
`newIndex[c.index] = curInd`.  The sequential indexed writes into the resized
`uniqueCoordsOut` are rendered as appends (`curInd` only ever moves forward
and every slot of the resized buffer is written exactly once). -/
def buildUnique (prev : CoordWithIndex) (rest : List CoordWithIndex)
    (curInd : Nat) (acc : List Int) (ni : List Nat) :
    Option (List Int × List Nat) :=
  match rest with
  | [] => some (acc, ni)
  | c :: rest' =>
    if cwiNeB c prev then
      match setOpt ni c.index (curInd + 1) with
      | none => none
      | some ni' =>
        buildUnique c rest' (curInd + 1)
          (acc ++ [c.data.x, c.data.y, c.data.z]) ni'
    else
      match setOpt ni c.index curInd with
      | none => none
      | some ni' => buildUnique c rest' curInd acc ni'

/-- Lines 222-250 of `RemoveDoubles`: sort, then build the unique coordinate
buffer and the `newIndex` map.  `newIndex` is value-initialised to zeroes
(`vector<index_t> newIndex(size)`), line 237 writes `newIndex[0] = 0`, and
lines 238-239 read `coordsWithIndexInOut[0]` — both undefined behaviour on an
empty coordinate list, hence `none` there. -/
def dedupScan (coords : List CoordWithIndex) : Option (List Int × List Nat) :=
  match sortCoords coords with
  | [] => none
  | first :: stail =>
    match setOpt (List.replicate coords.length 0) 0 0 with
    | none => none
    | some ni0 =>
      buildUnique first stail 0 [first.data.x, first.data.y, first.data.z] ni0

/-- Lines 252-268: re-index the triangle list through `newIndex`, keeping a
triangle iff its three new corner indices are pairwise distinct; surviving
triangles are compacted to the front in order and the list is truncated.
A read `newIndex[trisInOut[i+j]]` outside `newIndex` (and the reads past the
end of a triangle list whose length is not a multiple of 3) are undefined
behaviour, hence `none`. -/
def reindexTris (ni : List Nat) : List Nat → Option (List Nat)
  | [] => some []
  | t0 :: t1 :: t2 :: rest =>
    match ni[t0]?, ni[t1]?, ni[t2]? with
    | some n0, some n1, some n2 =>
      match reindexTris ni rest with
      | none => none
      | some rest' =>
        if n0 ≠ n1 ∧ n0 ≠ n2 ∧ n1 ≠ n2 then some (n0 :: n1 :: n2 :: rest')
        else some rest'
    | _, _, _ => none
  | _ => none

/-- `stl_reader_impl::RemoveDoubles` (lines 209-269), as a function from the
incoming triangle list and tagged coordinate list to the unique coordinate
buffer and the re-indexed triangle list. -/
def RemoveDoubles (tris : List Nat) (coords : List CoordWithIndex) :
    Option (List Int × List Nat) :=
  match dedupScan coords with
  | none => none
  | some (uc, ni) =>
    match reindexTris ni tris with
    | none => none
    | some tris' => some (uc, tris')

/-- View a flat index list as a list of corner-index triples (stride 3). -/
def tris3 : List Nat → List (Nat × Nat × Nat)
  | a :: b :: c :: rest => (a, b, c) :: tris3 rest
  | _ => []

/-- Flatten a list of coordinate triples into a stride-3 number list. -/
def flat3 : List V3 → List Int
  | [] => []
  | v :: vs => v.x :: v.y :: v.z :: flat3 vs

/-- Read a stride-3 number list back as coordinate triples. -/
def chunk3 : List Int → List V3
  | x :: y :: z :: rest => ⟨x, y, z⟩ :: chunk3 rest
  | _ => []

/-- Tag each coordinate triple with consecutive `index` values starting at
`k`, as the readers do when they push raw corners. -/
def tagFrom (k : Nat) : List V3 → List CoordWithIndex
  | [] => []
  | v :: vs => ⟨v, k⟩ :: tagFrom (k + 1) vs

/-- `[k, k+1, ..., k+n-1]`. -/
def natRangeFrom (k : Nat) : Nat → List Nat
  | 0 => []
  | n + 1 => k :: natRangeFrom (k + 1) n

example :
    RemoveDoubles [2, 3, 4, 1, 2, 3, 2, 1, 0]
      [⟨⟨0, 1, 0⟩, 0⟩, ⟨⟨1, 0, 0⟩, 1⟩, ⟨⟨1, 1, 0⟩, 2⟩, ⟨⟨1, 0, 0⟩, 3⟩,
        ⟨⟨0, 0, 0⟩, 4⟩] =
    some ([0, 0, 0, 0, 1, 0, 1, 0, 0, 1, 1, 0], [3, 2, 0, 3, 2, 1]) := by
  decide

/-- Errors thrown through `READ_STL_THROW` / `READ_STL_COND_THROW`, one
constructor per distinct throw site; the text-parse errors carry the 1-based
line number interpolated into the message. -/
inductive StlError
  | openFail
  | binHeader
  | binCount
  | binTri
  | vertexSpec (line : Nat)
  | triSpec (line : Nat)
  | missingNormal (line : Nat)
  | expectOuterLoop (line : Nat)
  | badVertexCount (line : Nat)
deriving DecidableEq

/-- The line number an error message reports, if it is a text-parse error. -/
def errLineOf : StlError → Option Nat
  | StlError.vertexSpec n => some n
  | StlError.triSpec n => some n
  | StlError.missingNormal n => some n
  | StlError.expectOuterLoop n => some n
  | StlError.badVertexCount n => some n
  | _ => none

/-- Result of running a reader: normal return, a thrown `std::runtime_error`,
or reaching C++ undefined behaviour (an out-of-bounds vector access). -/
inductive RRes (α : Type)
  | ok (a : α)
  | err (e : StlError)
  | oob
deriving DecidableEq

/-- The four caller-provided output containers. -/
structure Buffers where
  coords : List Int
  normals : List Int
  tris : List Nat
  solids : List Nat
deriving DecidableEq

/-- One complete 50-byte binary triangle record: 12 floats (normal plus
three corners) and the trailing 2-byte attribute field (discarded). -/
structure BinRecord where
  nrm : V3
  v1 : V3
  v2 : V3
  v3 : V3
deriving DecidableEq

/-- The binary view of a file: whether the 80-byte header and the 4-byte
triangle-count field can be fully read, and the complete triangle records
available after them. -/
structure BinData where
  hasHeader : Bool
  countField : Option Nat
  records : List BinRecord
deriving DecidableEq

/-- An STL file, abstracted at the level the readers consume it: whether it
can be opened, the first whitespace-delimited token (what
`STLFileHasASCIIFormat` extracts), its text lines, and its binary view.
`lines` holds one entry per iteration of the reader's `getline` loop, i.e.
the newline-separated segments of the content — including a final empty
segment when the content ends in a newline, because the loop checks the
stream flags only before `getline` and still processes the empty buffer the
failed final `getline` leaves behind.  The fields are views of one and the
same byte sequence. -/
structure StlFile where
  openable : Bool
  firstToken : String
  lines : List String
  bin : BinData

def kwVertex : String := "vertex"
def kwFacet : String := "facet"
def kwNormal : String := "normal"
def kwOuter : String := "outer"
def kwLoop : String := "loop"
def kwEndfacet : String := "endfacet"
def kwSolid : String := "solid"
def strEmpty : String := ""

/-- Whitespace as skipped by `istream` extraction under the default
locale. -/
def isSpaceChar (c : Char) : Bool :=
  c = ' ' || c = '\t' || c = '\n' || c = '\x0b' || c = '\x0c' || c = '\r'

/-- Maximal non-whitespace words of a character list (`cur` is the current
word, reversed). -/
def wordsAux (cur : List Char) : List Char → List (List Char)
  | [] => if cur = [] then [] else [cur.reverse]
  | c :: cs =>
    if isSpaceChar c then
      if cur = [] then wordsAux [] cs else cur.reverse :: wordsAux [] cs
    else wordsAux (c :: cur) cs

/-- The whitespace-delimited tokens of a line, in the plain sense of the
specification text. -/
def asciiWords (s : String) : List String :=
  (wordsAux [] s.toList).map (fun w => String.mk w)

/-- Whether the extraction loop (lines 325-332) ends with a failed
extraction for this line.  `line >> tokens[tokenCount]` is attempted while
neither `eofbit` nor `failbit` is set; the final attempt fails — its sentry
hits end-of-stream while skipping whitespace, so nothing is stored but
`tokenCount` is still incremented — exactly when the line is empty or ends
in a whitespace character (otherwise the last word's extraction itself sets
`eofbit` and ends the loop). -/
def hasPhantom (s : String) : Bool :=
  match s.toList.getLast? with
  | none => true
  | some c => isSpaceChar c

/-- The reused token buffer after the extraction loop ran on a line with
words `ws`: slots `0..ws.length-1` are overwritten with the words (growing
the buffer as needed; `resize` value-initialises new slots to `""`), and a
failed final extraction leaves its slot untouched — `operator>>` on a
`std::string` erases the target only when its sentry succeeds, and the
source deliberately does not clear `tokens` between lines (line 319). -/
def tokensAfter (old ws : List String) (phantom : Bool) : List String :=
  let base := ws ++ old.drop ws.length
  if phantom ∧ base.length = ws.length then base ++ [strEmpty] else base

/-- The first `tokenCount` slots of the token buffer after the extraction
loop, i.e. the token values lines 334-383 dispatch on: the line's
whitespace-delimited words, plus — when the final extraction failed — one
extra token holding the stale content of the next slot (`""` only if that
slot was never written). -/
def lineToks (tokens : List String) (line : String) : List String :=
  asciiWords line ++
    (if hasPhantom line then
      [tokens.getD (asciiWords line).length strEmpty]
    else [])

/-- Parser state of `ReadStlFile_ASCII` (lines 308-314): the accumulating
output buffers, the per-facet vertex counter, the 1-based line counter, and
the token vector that is reused across lines without being cleared. -/
structure AsciiState where
  cwi : List CoordWithIndex
  normals : List Int
  tris : List Nat
  solids : List Nat
  numFaceVrts : Nat
  lineCount : Nat
  tokens : List String
deriving DecidableEq

/-- Initial parser state: all buffers empty, `lineCount = 1`. -/
def asciiInit : AsciiState := ⟨[], [], [], [], 0, 1, []⟩

/-- Processing of one text line (lines 321-385 of the source), on the token
list produced by the extraction loop.  `toks` is never empty (the extraction
loop always runs at least once), so the `tokenCount > 0` guard corresponds
to the `cons` branch; the `nil` branch mirrors the guarded no-op.
The `endfacet` branch's `size() - 3` is `size_t` arithmetic; it is guarded
by `numFaceVrts = 3`, which forces `cwi.length ≥ 3`, so `Nat` subtraction
agrees with it on every reachable state. -/
def processToks (atof : String → Int) (st : AsciiState)
    (toks : List String) : Except StlError AsciiState :=
  match toks with
  | [] => Except.ok { st with lineCount := st.lineCount + 1 }
  | tok :: _ =>
    if tok = kwVertex then
      if toks.length < 4 then
        Except.error (StlError.vertexSpec st.lineCount)
      else
        Except.ok { st with
          cwi := st.cwi ++
            [⟨⟨atof (toks.getD 1 strEmpty), atof (toks.getD 2 strEmpty),
                atof (toks.getD 3 strEmpty)⟩, st.cwi.length⟩],
          numFaceVrts := st.numFaceVrts + 1,
          lineCount := st.lineCount + 1 }
    else if tok = kwFacet then
      if toks.length < 5 then
        Except.error (StlError.triSpec st.lineCount)
      else if toks.getD 1 strEmpty ≠ kwNormal then
        Except.error (StlError.missingNormal st.lineCount)
      else
        Except.ok { st with
          normals := st.normals ++
            [atof (toks.getD 2 strEmpty), atof (toks.getD 3 strEmpty),
              atof (toks.getD 4 strEmpty)],
          numFaceVrts := 0,
          lineCount := st.lineCount + 1 }
    else if tok = kwOuter then
      if toks.length < 2 ∨ toks.getD 1 strEmpty ≠ kwLoop then
        Except.error (StlError.expectOuterLoop st.lineCount)
      else Except.ok { st with lineCount := st.lineCount + 1 }
    else if tok = kwEndfacet then
      if st.numFaceVrts ≠ 3 then
        Except.error (StlError.badVertexCount st.lineCount)
      else
        Except.ok { st with
          tris := st.tris ++
            [st.cwi.length - 3, st.cwi.length - 2, st.cwi.length - 1],
          lineCount := st.lineCount + 1 }
    else if tok = kwSolid then
      Except.ok { st with
        solids := st.solids ++ [st.tris.length / 3],
        lineCount := st.lineCount + 1 }
    else Except.ok { st with lineCount := st.lineCount + 1 }

/-- Processing of one raw text line: run the extraction loop (updating the
reused token buffer carried in the state), then dispatch on the first
`tokenCount` token values. -/
def processLine (atof : String → Int) (st : AsciiState) (line : String) :
    Except StlError AsciiState :=
  processToks atof
    { st with
        tokens := tokensAfter st.tokens (asciiWords line) (hasPhantom line) }
    (lineToks st.tokens line)

/-- The reader's `while` loop over the lines of the file, aborting on the
first thrown error; the reused token buffer travels inside the state. -/
def asciiLoop (atof : String → Int) (st : AsciiState) :
    List String → Except StlError AsciiState
  | [] => Except.ok st
  | line :: rest =>
    match processLine atof st line with
    | Except.error e => Except.error e
    | Except.ok st' => asciiLoop atof st' rest

/-- `ReadStlFile_ASCII` (lines 287-393).  The four output containers are
cleared on entry (lines 300-303), so the result never consults the buffers
passed in; after the line loop the closing solid boundary
`trisOut.size() / 3` is pushed (line 388, before `RemoveDoubles`), and
`RemoveDoubles` rewrites the coordinate and triangle buffers. -/
def ReadStlFile_ASCII (atof : String → Int) (initBufs : Buffers)
    (f : StlFile) : RRes (Buffers × Bool) :=
  if f.openable = false then RRes.err StlError.openFail
  else
    match asciiLoop atof asciiInit f.lines with
    | Except.error e => RRes.err e
    | Except.ok st =>
      match RemoveDoubles st.tris st.cwi with
      | none => RRes.oob
      | some (uc, tris') =>
        RRes.ok (⟨uc, st.normals, tris',
          st.solids ++ [st.tris.length / 3]⟩, true)

/-- Per-triangle loop of `ReadStlFile_BINARY` (lines 427-450): for each of
the `numTris` declared triangles read one 50-byte record (throwing when the
stream is exhausted), push the normal, push the three tagged corners, and
push the triangle's three raw corner indices. -/
def binLoop : Nat → List BinRecord →
    List Int × List CoordWithIndex × List Nat →
    Except StlError (List Int × List CoordWithIndex × List Nat)
  | 0, _, st => Except.ok st
  | _ + 1, [], _ => Except.error StlError.binTri
  | n + 1, r :: rest, (normals, cwi, tris) =>
    let cwi' := cwi ++ [⟨r.v1, cwi.length⟩, ⟨r.v2, cwi.length + 1⟩,
      ⟨r.v3, cwi.length + 2⟩]
    binLoop n rest
      (normals ++ [r.nrm.x, r.nrm.y, r.nrm.z], cwi',
        tris ++ [cwi'.length - 3, cwi'.length - 2, cwi'.length - 1])

/-- `ReadStlFile_BINARY` (lines 396-458).  Outputs are cleared on entry
(lines 409-412); the solid-range list `{0, trisOut.size()/3}` is pushed
before `RemoveDoubles` runs (lines 452-453), using the pre-deduplication
triangle count. -/
def ReadStlFile_BINARY (initBufs : Buffers) (f : StlFile) :
    RRes (Buffers × Bool) :=
  if f.openable = false then RRes.err StlError.openFail
  else if f.bin.hasHeader = false then RRes.err StlError.binHeader
  else
    match f.bin.countField with
    | none => RRes.err StlError.binCount
    | some numTris =>
      match binLoop numTris f.bin.records ([], [], []) with
      | Except.error e => RRes.err e
      | Except.ok (normals, cwi, tris) =>
        match RemoveDoubles tris cwi with
        | none => RRes.oob
        | some (uc, tris') =>
          RRes.ok (⟨uc, normals, tris', [0, tris.length / 3]⟩, true)

/-- Character-wise ASCII lowercasing, as `::tolower` applied per `char`
under the default locale. -/
def asciiLowerChar (c : Char) : Char :=
  if c.toNat ≥ 65 ∧ c.toNat ≤ 90 then Char.ofNat (c.toNat + 32) else c

/-- Lowercase every character of a string. -/
def asciiLower (s : String) : String :=
  String.mk (s.toList.map asciiLowerChar)

/-- `STLFileHasASCIIFormat` (lines 461-472): throw if the file cannot be
opened, otherwise read the first whitespace-delimited token, lowercase it,
and compare it with `"solid"`.  (On an empty or all-whitespace file the
failed extraction leaves the token empty, which compares unequal.) -/
def STLFileHasASCIIFormat (f : StlFile) : Except StlError Bool :=
  if f.openable = false then Except.error StlError.openFail
  else Except.ok (asciiLower f.firstToken = kwSolid)

/-- `ReadStlFile` (lines 273-284): dispatch on the format sniffer; an error
thrown by the sniffer propagates to the caller. -/
def ReadStlFile (atof : String → Int) (initBufs : Buffers) (f : StlFile) :
    RRes (Buffers × Bool) :=
  match STLFileHasASCIIFormat f with
  | Except.error e => RRes.err e
  | Except.ok true => ReadStlFile_ASCII atof initBufs f
  | Except.ok false => ReadStlFile_BINARY initBufs f

def atof0 : String → Int := fun _ => 0

def emptyBufs : Buffers := ⟨[], [], [], []⟩

theorem cwiLtB_eq_true_iff (a b : CoordWithIndex) :
    cwiLtB a b = true ↔ vlt a.data b.data := by
  unfold cwiLtB vlt
  simp only [Bool.or_eq_true, Bool.and_eq_true, decide_eq_true_eq,
    beq_iff_eq]
  omega

theorem cwiLtB_eq_false_iff (a b : CoordWithIndex) :
    cwiLtB a b = false ↔ ¬ vlt a.data b.data := by
  rw [← cwiLtB_eq_true_iff]
  cases h : cwiLtB a b <;> simp

theorem cwiLe_iff (a b : CoordWithIndex) :
    cwiLe a b ↔ ¬ vlt b.data a.data :=
  cwiLtB_eq_false_iff b a

theorem v3_eq_iff (a b : V3) :
    a = b ↔ a.x = b.x ∧ a.y = b.y ∧ a.z = b.z := by
  cases a; cases b; simp

theorem cwiNeB_eq_true_iff (a b : CoordWithIndex) :
    cwiNeB a b = true ↔ a.data ≠ b.data := by
  unfold cwiNeB
  simp only [Bool.or_eq_true, bne_iff_ne, ne_eq, v3_eq_iff]
  omega

theorem cwiNeB_eq_false_iff (a b : CoordWithIndex) :
    cwiNeB a b = false ↔ a.data = b.data := by
  rw [← Bool.not_eq_true, cwiNeB_eq_true_iff]
  simp

theorem vlt_irrefl (a : V3) : ¬ vlt a a := by
  unfold vlt; omega

theorem vlt_trans {a b c : V3} : vlt a b → vlt b c → vlt a c := by
  unfold vlt; omega

theorem vlt_ne {a b : V3} (h : vlt a b) : a ≠ b := by
  intro he; exact vlt_irrefl b (he ▸ h)

theorem vlt_of_not_vlt_of_ne {a b : V3} (h : ¬ vlt b a) (hne : a ≠ b) :
    vlt a b := by
  rw [ne_eq, v3_eq_iff] at hne
  unfold vlt at *
  omega

instance : IsTotal CoordWithIndex cwiLe :=
  ⟨by
    intro a b
    rw [cwiLe_iff, cwiLe_iff]
    unfold vlt
    omega⟩

instance : IsTrans CoordWithIndex cwiLe :=
  ⟨by
    intro a b c hab hbc
    rw [cwiLe_iff] at *
    unfold vlt at *
    omega⟩

theorem sortCoords_sorted (l : List CoordWithIndex) :
    List.Sorted cwiLe (sortCoords l) :=
  List.sorted_insertionSort cwiLe l

theorem sortCoords_perm (l : List CoordWithIndex) :
    List.Perm (sortCoords l) l :=
  List.perm_insertionSort cwiLe l

theorem setOpt_length {α : Type} :
    ∀ (l : List α) (i : Nat) (v : α) (l' : List α),
      setOpt l i v = some l' → l'.length = l.length
  | [], _, _, _ => by simp [setOpt]
  | h :: t, 0, v, l' => by
    intro heq
    simp only [setOpt, Option.some.injEq] at heq
    subst heq
    rfl
  | h :: t, i + 1, v, l' => by
    intro heq
    simp only [setOpt, Option.map_eq_some'] at heq
    obtain ⟨t', ht', rfl⟩ := heq
    simp [setOpt_length t i v t' ht']

theorem mem_setOpt {α : Type} :
    ∀ (l : List α) (i : Nat) (v : α) (l' : List α) (x : α),
      setOpt l i v = some l' → x ∈ l' → x = v ∨ x ∈ l
  | [], _, _, _, _ => by simp [setOpt]
  | h :: t, 0, v, l', x => by
    intro heq hx
    simp only [setOpt, Option.some.injEq] at heq
    subst heq
    rcases List.mem_cons.1 hx with h1 | h1
    · exact Or.inl h1
    · exact Or.inr (List.mem_cons_of_mem _ h1)
  | h :: t, i + 1, v, l', x => by
    intro heq hx
    simp only [setOpt, Option.map_eq_some'] at heq
    obtain ⟨t', ht', rfl⟩ := heq
    rcases List.mem_cons.1 hx with h1 | h1
    · exact Or.inr (h1 ▸ List.mem_cons_self _ _)
    · rcases mem_setOpt t i v t' x ht' h1 with h2 | h2
      · exact Or.inl h2
      · exact Or.inr (List.mem_cons_of_mem _ h2)

theorem setOpt_isSome_of_lt {α : Type} :
    ∀ (l : List α) (i : Nat) (v : α), i < l.length →
      ∃ l', setOpt l i v = some l'
  | [], i, v => by simp
  | h :: t, 0, v => by
    intro
    exact ⟨v :: t, rfl⟩
  | h :: t, i + 1, v => by
    intro hlt
    obtain ⟨t', ht'⟩ :=
      setOpt_isSome_of_lt t i v (Nat.lt_of_succ_lt_succ (by simpa using hlt))
    exact ⟨h :: t', by simp [setOpt, ht']⟩

theorem setOpt_append {α : Type} :
    ∀ (l1 : List α) (a : α) (l2 : List α) (v : α),
      setOpt (l1 ++ a :: l2) l1.length v = some (l1 ++ v :: l2)
  | [], a, l2, v => rfl
  | h :: t, a, l2, v => by
    have ih := setOpt_append t a l2 v
    simp only [List.cons_append, List.length_cons, setOpt, List.append_eq,
      ih, Option.map_some']

/-- The head coordinates of each run of component-wise equal entries after
the given predecessor: exactly the entries lines 241-250 append to the
unique-coordinate buffer. -/
def runHeads (prev : CoordWithIndex) : List CoordWithIndex → List V3
  | [] => []
  | c :: rest =>
    if cwiNeB c prev then c.data :: runHeads c rest else runHeads prev rest

theorem cwiNeB_congr {a b : CoordWithIndex} (h : a.data = b.data)
    (x : CoordWithIndex) : cwiNeB x a = cwiNeB x b := by
  unfold cwiNeB
  rw [h]

theorem runHeads_congr {a b : CoordWithIndex} (h : a.data = b.data) :
    ∀ l : List CoordWithIndex, runHeads a l = runHeads b l
  | [] => rfl
  | c :: rest => by
    simp only [runHeads, cwiNeB_congr h c]
    rcases hc : cwiNeB c b with _ | _
    · simp [runHeads_congr h rest]
    · simp

theorem chunk3_flat3 : ∀ vs : List V3, chunk3 (flat3 vs) = vs
  | [] => rfl
  | v :: vs => by simp [flat3, chunk3, chunk3_flat3 vs]

theorem flat3_length : ∀ vs : List V3, (flat3 vs).length = 3 * vs.length
  | [] => rfl
  | v :: vs => by
    simp [flat3, flat3_length vs]
    omega

theorem buildUnique_spec :
    ∀ (rest : List CoordWithIndex) (prev : CoordWithIndex) (curInd : Nat)
      (acc : List Int) (ni : List Nat) (uc : List Int) (nf : List Nat),
      buildUnique prev rest curInd acc ni = some (uc, nf) →
      acc.length = 3 * (curInd + 1) →
      (∀ x ∈ ni, x ≤ curInd) →
      ∃ m, curInd ≤ m ∧ uc.length = 3 * (m + 1) ∧ (∀ x ∈ nf, x ≤ m) ∧
        nf.length = ni.length
  | [], prev, curInd, acc, ni, uc, nf => by
    intro heq hacc hni
    simp only [buildUnique, Option.some.injEq, Prod.mk.injEq] at heq
    obtain ⟨rfl, rfl⟩ := heq
    exact ⟨curInd, le_rfl, hacc, hni, rfl⟩
  | c :: rest', prev, curInd, acc, ni, uc, nf => by
    intro heq hacc hni
    simp only [buildUnique] at heq
    rcases hne : cwiNeB c prev with _ | _ <;> rw [hne] at heq <;>
      simp only [Bool.false_eq_true, if_false, if_true] at heq
    · rcases hso : setOpt ni c.index curInd with _ | ni' <;>
        rw [hso] at heq
      · cases heq
      · obtain ⟨m, h1, h2, h3, h4⟩ :=
          buildUnique_spec rest' c curInd acc ni' uc nf heq hacc
            (fun x hx => by
              rcases mem_setOpt ni c.index curInd ni' x hso hx with h | h
              · omega
              · exact hni x h)
        exact ⟨m, h1, h2, h3, h4.trans (setOpt_length ni c.index curInd ni' hso)⟩
    · rcases hso : setOpt ni c.index (curInd + 1) with _ | ni' <;>
        rw [hso] at heq
      · cases heq
      · obtain ⟨m, h1, h2, h3, h4⟩ :=
          buildUnique_spec rest' c (curInd + 1)
            (acc ++ [c.data.x, c.data.y, c.data.z]) ni' uc nf heq
            (by simp [hacc]; omega)
            (fun x hx => by
              rcases mem_setOpt ni c.index (curInd + 1) ni' x hso hx with h | h
              · omega
              · exact Nat.le_succ_of_le (hni x h))
        exact ⟨m, by omega, h2, h3,
          h4.trans (setOpt_length ni c.index (curInd + 1) ni' hso)⟩

theorem buildUnique_uc :
    ∀ (rest : List CoordWithIndex) (prev : CoordWithIndex) (curInd : Nat)
      (acc : List Int) (ni : List Nat) (uc : List Int) (nf : List Nat),
      buildUnique prev rest curInd acc ni = some (uc, nf) →
      uc = acc ++ flat3 (runHeads prev rest)
  | [], prev, curInd, acc, ni, uc, nf => by
    intro heq
    simp only [buildUnique, Option.some.injEq, Prod.mk.injEq] at heq
    simp [runHeads, flat3, heq.1.symm]
  | c :: rest', prev, curInd, acc, ni, uc, nf => by
    intro heq
    simp only [buildUnique] at heq
    rcases hne : cwiNeB c prev with _ | _ <;> rw [hne] at heq <;>
      simp only [Bool.false_eq_true, if_false, if_true] at heq
    · rcases hso : setOpt ni c.index curInd with _ | ni' <;> rw [hso] at heq
      · cases heq
      · have hd : c.data = prev.data := cwiNeB_eq_false_iff c prev |>.1 hne
        rw [buildUnique_uc rest' c curInd acc ni' uc nf heq,
          runHeads, hne, runHeads_congr hd rest']
        simp
    · rcases hso : setOpt ni c.index (curInd + 1) with _ | ni' <;>
        rw [hso] at heq
      · cases heq
      · rw [buildUnique_uc rest' c (curInd + 1)
          (acc ++ [c.data.x, c.data.y, c.data.z]) ni' uc nf heq,
          runHeads, hne]
        simp [flat3]

theorem chain_vlt_runHeads :
    ∀ (rest : List CoordWithIndex) (prev : CoordWithIndex),
      List.Chain' cwiLe (prev :: rest) →
      List.Chain' vlt (prev.data :: runHeads prev rest)
  | [], prev => by
    intro
    simp [runHeads]
  | c :: rest', prev => by
    intro hch
    rw [List.chain'_cons] at hch
    obtain ⟨hle, hch'⟩ := hch
    rcases hne : cwiNeB c prev with _ | _
    · have hd : c.data = prev.data := cwiNeB_eq_false_iff c prev |>.1 hne
      have ih := chain_vlt_runHeads rest' c hch'
      rw [hd, runHeads_congr hd rest'] at ih
      simpa [runHeads, hne] using ih
    · have hdne : c.data ≠ prev.data := cwiNeB_eq_true_iff c prev |>.1 hne
      have hvlt : vlt prev.data c.data :=
        vlt_of_not_vlt_of_ne ((cwiLe_iff prev c).1 hle) (Ne.symm hdne)
      have ih := chain_vlt_runHeads rest' c hch'
      simp only [runHeads, hne, if_true]
      exact List.Chain'.cons hvlt ih

/-- Triple-level view of the re-indexing step (lines 254-265): remap the
three corners of one triangle through `newIndex` and keep the triangle iff
the new indices are pairwise distinct. -/
def remapKeep (ni : List Nat) (t : Nat × Nat × Nat) :
    Option (Nat × Nat × Nat) :=
  match ni[t.1]?, ni[t.2.1]?, ni[t.2.2]? with
  | some n0, some n1, some n2 =>
    if n0 ≠ n1 ∧ n0 ≠ n2 ∧ n1 ≠ n2 then some (n0, n1, n2) else none
  | _, _, _ => none

theorem reindexTris_triples (ni : List Nat) :
    ∀ (tris out : List Nat), reindexTris ni tris = some out →
      tris3 out = (tris3 tris).filterMap (remapKeep ni)
  | [], out => by
    intro heq
    simp only [reindexTris, Option.some.injEq] at heq
    simp [← heq, tris3]
  | [a], out => by simp [reindexTris]
  | [a, b], out => by simp [reindexTris]
  | t0 :: t1 :: t2 :: rest, out => by
    intro heq
    simp only [reindexTris] at heq
    rcases h0 : ni[t0]? with _ | n0 <;> rw [h0] at heq <;> try cases heq
    rcases h1 : ni[t1]? with _ | n1 <;> rw [h1] at heq <;> try cases heq
    rcases h2 : ni[t2]? with _ | n2 <;> rw [h2] at heq <;> try cases heq
    rcases hrec : reindexTris ni rest with _ | rest' <;> rw [hrec] at heq <;>
      try cases heq
    have ih := reindexTris_triples ni rest rest' hrec
    have heq2 : (if n0 ≠ n1 ∧ n0 ≠ n2 ∧ n1 ≠ n2 then
        some (n0 :: n1 :: n2 :: rest') else some rest') = some out := heq
    by_cases hd : n0 ≠ n1 ∧ n0 ≠ n2 ∧ n1 ≠ n2
    · rw [if_pos hd, Option.some.injEq] at heq2
      subst heq2
      simp only [tris3, List.filterMap_cons]
      rw [show remapKeep ni (t0, t1, t2) = some (n0, n1, n2) by
        simp [remapKeep, h0, h1, h2, hd]]
      simp [ih]
    · rw [if_neg hd, Option.some.injEq] at heq2
      subst heq2
      simp only [tris3, List.filterMap_cons]
      rw [show remapKeep ni (t0, t1, t2) = none by
        simp [remapKeep, h0, h1, h2, hd]]
      exact ih

theorem reindexTris_mem (ni : List Nat) :
    ∀ (tris out : List Nat), reindexTris ni tris = some out →
      ∀ x ∈ out, x ∈ ni
  | [], out => by
    intro heq
    simp only [reindexTris, Option.some.injEq] at heq
    simp [← heq]
  | [a], out => by simp [reindexTris]
  | [a, b], out => by simp [reindexTris]
  | t0 :: t1 :: t2 :: rest, out => by
    intro heq
    simp only [reindexTris] at heq
    rcases h0 : ni[t0]? with _ | n0 <;> rw [h0] at heq <;> try cases heq
    rcases h1 : ni[t1]? with _ | n1 <;> rw [h1] at heq <;> try cases heq
    rcases h2 : ni[t2]? with _ | n2 <;> rw [h2] at heq <;> try cases heq
    rcases hrec : reindexTris ni rest with _ | rest' <;> rw [hrec] at heq <;>
      try cases heq
    have ih := reindexTris_mem ni rest rest' hrec
    have heq2 : (if n0 ≠ n1 ∧ n0 ≠ n2 ∧ n1 ≠ n2 then
        some (n0 :: n1 :: n2 :: rest') else some rest') = some out := heq
    by_cases hd : n0 ≠ n1 ∧ n0 ≠ n2 ∧ n1 ≠ n2
    · rw [if_pos hd, Option.some.injEq] at heq2
      subst heq2
      intro x hx
      rcases List.mem_cons.1 hx with rfl | hx
      · exact List.getElem?_mem h0
      rcases List.mem_cons.1 hx with rfl | hx
      · exact List.getElem?_mem h1
      rcases List.mem_cons.1 hx with rfl | hx
      · exact List.getElem?_mem h2
      · exact ih x hx
    · rw [if_neg hd, Option.some.injEq] at heq2
      subst heq2
      exact ih

theorem reindexTris_mod3 (ni : List Nat) :
    ∀ (tris out : List Nat), reindexTris ni tris = some out →
      out.length % 3 = 0
  | [], out => by
    intro heq
    simp only [reindexTris, Option.some.injEq] at heq
    simp [← heq]
  | [a], out => by simp [reindexTris]
  | [a, b], out => by simp [reindexTris]
  | t0 :: t1 :: t2 :: rest, out => by
    intro heq
    simp only [reindexTris] at heq
    rcases h0 : ni[t0]? with _ | n0 <;> rw [h0] at heq <;> try cases heq
    rcases h1 : ni[t1]? with _ | n1 <;> rw [h1] at heq <;> try cases heq
    rcases h2 : ni[t2]? with _ | n2 <;> rw [h2] at heq <;> try cases heq
    rcases hrec : reindexTris ni rest with _ | rest' <;> rw [hrec] at heq <;>
      try cases heq
    have ih := reindexTris_mod3 ni rest rest' hrec
    have heq2 : (if n0 ≠ n1 ∧ n0 ≠ n2 ∧ n1 ≠ n2 then
        some (n0 :: n1 :: n2 :: rest') else some rest') = some out := heq
    by_cases hd : n0 ≠ n1 ∧ n0 ≠ n2 ∧ n1 ≠ n2
    · rw [if_pos hd, Option.some.injEq] at heq2
      subst heq2
      simp only [List.length_cons]
      omega
    · rw [if_neg hd, Option.some.injEq] at heq2
      subst heq2
      exact ih

instance : IsTrans V3 vlt := ⟨fun _ _ _ => vlt_trans⟩

theorem dedupScan_spec {coords : List CoordWithIndex} {uc : List Int}
    {ni : List Nat} (h : dedupScan coords = some (uc, ni)) :
    List.Chain' vlt (chunk3 uc) ∧ uc = flat3 (chunk3 uc) ∧
    ∃ m, uc.length = 3 * (m + 1) ∧ (∀ x ∈ ni, x ≤ m) ∧
      ni.length = coords.length := by
  unfold dedupScan at h
  rcases hs : sortCoords coords with _ | ⟨first, stail⟩ <;> rw [hs] at h
  · cases h
  · have hlen : coords.length = stail.length + 1 := by
      have := (sortCoords_perm coords).length_eq
      rw [hs] at this
      simpa using this.symm
    rw [hlen, List.replicate_succ] at h
    simp only [setOpt] at h
    have huc := buildUnique_uc stail first 0
      [first.data.x, first.data.y, first.data.z]
      (0 :: List.replicate stail.length 0) uc ni h
    have hflat : uc = flat3 (first.data :: runHeads first stail) := by
      rw [huc]; simp [flat3]
    have hchunk : chunk3 uc = first.data :: runHeads first stail := by
      rw [hflat, chunk3_flat3]
    have hsorted := sortCoords_sorted coords
    rw [hs] at hsorted
    have hchain : List.Chain' vlt (chunk3 uc) := by
      rw [hchunk]
      exact chain_vlt_runHeads stail first hsorted.chain'
    refine ⟨hchain, by rw [hflat, chunk3_flat3, ← hflat], ?_⟩
    obtain ⟨m, _, h2, h3, h4⟩ := buildUnique_spec stail first 0
      [first.data.x, first.data.y, first.data.z]
      (0 :: List.replicate stail.length 0) uc ni h rfl
      (fun x hx => by
        rcases List.mem_cons.1 hx with rfl | hx
        · exact le_rfl
        · exact le_of_eq (List.eq_of_mem_replicate hx))
    exact ⟨m, h2, h3, by simpa [hlen] using h4⟩

theorem vlt_asymm {a b : V3} : vlt a b → ¬ vlt b a := by
  unfold vlt; omega

theorem tagFrom_length : ∀ (vs : List V3) (k : Nat),
    (tagFrom k vs).length = vs.length
  | [], _ => rfl
  | v :: vs, k => by simp [tagFrom, tagFrom_length vs (k + 1)]

theorem mem_tagFrom : ∀ (vs : List V3) (k : Nat) (c : CoordWithIndex),
    c ∈ tagFrom k vs → c.data ∈ vs
  | [], _, _ => by simp [tagFrom]
  | v :: vs, k, c => by
    intro hc
    rcases List.mem_cons.1 hc with rfl | hc
    · exact List.mem_cons_self _ _
    · exact List.mem_cons_of_mem _ (mem_tagFrom vs (k + 1) c hc)

theorem pairwise_cwiLe_tagFrom :
    ∀ (vs : List V3) (k : Nat), List.Pairwise vlt vs →
      List.Pairwise cwiLe (tagFrom k vs)
  | [], _ => by simp [tagFrom]
  | v :: vs, k => by
    intro hp
    rw [List.pairwise_cons] at hp
    refine List.Pairwise.cons ?_ (pairwise_cwiLe_tagFrom vs (k + 1) hp.2)
    intro c hc
    rw [cwiLe_iff]
    exact vlt_asymm (hp.1 c.data (mem_tagFrom vs (k + 1) c hc))

theorem getElem?_natRangeFrom :
    ∀ (n k j : Nat), j < n → (natRangeFrom k n)[j]? = some (k + j)
  | 0, _, _ => by omega
  | n + 1, k, 0 => by
    intro
    simp [natRangeFrom]
  | n + 1, k, j + 1 => by
    intro hj
    have := getElem?_natRangeFrom n (k + 1) j (by omega)
    simp only [natRangeFrom, List.getElem?_cons_succ, this]
    congr 1
    omega

theorem buildUnique_fixpoint :
    ∀ (xs : List V3) (k : Nat) (prev : CoordWithIndex) (acc : List Int)
      (pre : List Nat),
      pre.length = k + 1 →
      List.Chain' (fun a b => a ≠ b) (prev.data :: xs) →
      buildUnique prev (tagFrom (k + 1) xs) k acc
        (pre ++ List.replicate xs.length 0) =
      some (acc ++ flat3 xs, pre ++ natRangeFrom (k + 1) xs.length)
  | [], k, prev, acc, pre => by
    intro hpre hch
    simp [tagFrom, buildUnique, flat3, natRangeFrom]
  | x :: xs', k, prev, acc, pre => by
    intro hpre hch
    rw [List.chain'_cons] at hch
    obtain ⟨hne, hch'⟩ := hch
    have hneb : cwiNeB ⟨x, k + 1⟩ prev = true :=
      (cwiNeB_eq_true_iff _ _).2 (by simpa using Ne.symm hne)
    have hset : setOpt (pre ++ List.replicate (x :: xs').length 0) (k + 1)
        (k + 1) = some (pre ++ (k + 1) :: List.replicate xs'.length 0) := by
      rw [List.length_cons, List.replicate_succ]
      have h0 := setOpt_append pre 0 (List.replicate xs'.length 0) (k + 1)
      rw [hpre] at h0
      exact h0
    have ih := buildUnique_fixpoint xs' (k + 1) ⟨x, k + 1⟩
      (acc ++ [x.x, x.y, x.z]) (pre ++ [k + 1])
      (by simp [hpre]) (by simpa using hch')
    simp only [tagFrom, buildUnique, hneb, if_true, hset]
    rw [show (pre ++ (k + 1) :: List.replicate xs'.length 0) =
      ((pre ++ [k + 1]) ++ List.replicate xs'.length 0) by simp]
    rw [ih]
    simp [flat3, natRangeFrom]

theorem reindexTris_id :
    ∀ (l : List Nat) (n : Nat),
      l.length % 3 = 0 →
      (∀ t ∈ tris3 l, t.1 < n ∧ t.2.1 < n ∧ t.2.2 < n ∧
        t.1 ≠ t.2.1 ∧ t.1 ≠ t.2.2 ∧ t.2.1 ≠ t.2.2) →
      reindexTris (natRangeFrom 0 n) l = some l
  | [], n => by
    intro _ _
    rfl
  | [a], n => by
    intro hlen
    simp at hlen
  | [a, b], n => by
    intro hlen
    simp at hlen
  | t0 :: t1 :: t2 :: rest, n => by
    intro hlen ht
    have h3 := ht (t0, t1, t2) (by simp [tris3])
    have g0 := getElem?_natRangeFrom n 0 t0 h3.1
    have g1 := getElem?_natRangeFrom n 0 t1 h3.2.1
    have g2 := getElem?_natRangeFrom n 0 t2 h3.2.2.1
    simp only [Nat.zero_add] at g0 g1 g2
    have ihl : rest.length % 3 = 0 := by
      simp only [List.length_cons] at hlen
      omega
    have ih := reindexTris_id rest n ihl
      (fun t htm => ht t (by simp [tris3, htm]))
    simp only [reindexTris, g0, g1, g2, ih]
    rw [if_pos ⟨h3.2.2.2.1, h3.2.2.2.2.1, h3.2.2.2.2.2⟩]

theorem RemoveDoubles_inv {tris : List Nat} {coords : List CoordWithIndex}
    {uc : List Int} {tris' : List Nat}
    (h : RemoveDoubles tris coords = some (uc, tris')) :
    ∃ ni, dedupScan coords = some (uc, ni) ∧
      reindexTris ni tris = some tris' := by
  unfold RemoveDoubles at h
  rcases hd : dedupScan coords with _ | p <;> rw [hd] at h
  · cases h
  · obtain ⟨uc0, ni⟩ := p
    have h2 : (match reindexTris ni tris with
      | none => none
      | some t2 => some (uc0, t2)) = some (uc, tris') := h
    rcases hr : reindexTris ni tris with _ | t2 <;> rw [hr] at h2
    · cases h2
    · simp only [Option.some.injEq, Prod.mk.injEq] at h2
      obtain ⟨rfl, rfl⟩ := h2
      exact ⟨ni, rfl, hr⟩

theorem remapKeep_some {ni : List Nat} {a t : Nat × Nat × Nat}
    (h : remapKeep ni a = some t) :
    t.1 ∈ ni ∧ t.2.1 ∈ ni ∧ t.2.2 ∈ ni ∧
      t.1 ≠ t.2.1 ∧ t.1 ≠ t.2.2 ∧ t.2.1 ≠ t.2.2 := by
  unfold remapKeep at h
  rcases h0 : ni[a.1]? with _ | n0 <;> rw [h0] at h <;> try cases h
  rcases h1 : ni[a.2.1]? with _ | n1 <;> rw [h1] at h <;> try cases h
  rcases h2 : ni[a.2.2]? with _ | n2 <;> rw [h2] at h <;> try cases h
  have h3 : (if n0 ≠ n1 ∧ n0 ≠ n2 ∧ n1 ≠ n2 then some (n0, n1, n2)
      else none) = some t := h
  by_cases hd : n0 ≠ n1 ∧ n0 ≠ n2 ∧ n1 ≠ n2
  · rw [if_pos hd, Option.some.injEq] at h3
    subst h3
    exact ⟨List.getElem?_mem h0, List.getElem?_mem h1, List.getElem?_mem h2,
      hd.1, hd.2.1, hd.2.2⟩
  · rw [if_neg hd] at h3
    cases h3

/-- C3: after `RemoveDoubles`, the unique coordinate buffer is strictly
sorted in the lexicographic order (one entry per run of equal coordinates),
no two of its triples are component-wise equal, and re-running the
deduplication on its own output (the unique buffer re-tagged with sequential
indices, together with the surviving triangle list) reproduces exactly the
same two buffers — deduplication is a fixed point on its own output. -/
theorem removeDoubles_sorted_unique_fixpoint
    (coords : List CoordWithIndex) (tris : List Nat) (uc : List Int)
    (tris' : List Nat)
    (h : RemoveDoubles tris coords = some (uc, tris')) :
    List.Chain' vlt (chunk3 uc) ∧
    List.Pairwise (fun a b => a ≠ b) (chunk3 uc) ∧
    RemoveDoubles tris' (tagFrom 0 (chunk3 uc)) = some (uc, tris') := by
  obtain ⟨ni, hscan, hre⟩ := RemoveDoubles_inv h
  obtain ⟨hchain, hflat, m, hlen, hbound, hnlen⟩ := dedupScan_spec hscan
  have hpw : List.Pairwise vlt (chunk3 uc) := List.chain'_iff_pairwise.1 hchain
  refine ⟨hchain, hpw.imp vlt_ne, ?_⟩
  have hXlen : (chunk3 uc).length = m + 1 := by
    have := flat3_length (chunk3 uc)
    rw [← hflat, hlen] at this
    omega
  rcases hX : chunk3 uc with _ | ⟨x0, xs⟩
  · rw [hX] at hXlen
    simp at hXlen
  · have hsorted : List.Sorted cwiLe (tagFrom 0 (chunk3 uc)) :=
      pairwise_cwiLe_tagFrom (chunk3 uc) 0 hpw
    have hscan2 : dedupScan (tagFrom 0 (chunk3 uc)) =
        some (uc, natRangeFrom 0 (chunk3 uc).length) := by
      unfold dedupScan
      rw [show sortCoords (tagFrom 0 (chunk3 uc)) = tagFrom 0 (chunk3 uc)
        from List.Sorted.insertionSort_eq hsorted]
      rw [hX]
      simp only [tagFrom, tagFrom_length, List.length_cons,
        List.replicate_succ, setOpt]
      have hch : List.Chain' (fun a b => a ≠ b) (x0 :: xs) := by
        rw [← hX]
        exact hchain.imp (fun a b hab => vlt_ne hab)
      have hfix := buildUnique_fixpoint xs 0 ⟨x0, 0⟩ [x0.x, x0.y, x0.z] [0]
        rfl (by simpa using hch)
      simp only [List.singleton_append] at hfix
      rw [hfix]
      have hucX : uc = flat3 (x0 :: xs) := by rw [← hX]; exact hflat
      have e1 : ([x0.x, x0.y, x0.z] : List Int) ++ flat3 xs =
          flat3 (x0 :: xs) := by simp [flat3]
      rw [e1, ← hucX]
      simp [natRangeFrom]
    have hmod := reindexTris_mod3 ni tris tris' hre
    have htri := reindexTris_triples ni tris tris' hre
    have hid : reindexTris (natRangeFrom 0 (chunk3 uc).length) tris' =
        some tris' := by
      apply reindexTris_id tris' (chunk3 uc).length hmod
      intro t ht
      rw [htri] at ht
      obtain ⟨a, _, hra⟩ := List.mem_filterMap.1 ht
      obtain ⟨m0, m1, m2, d0, d1, d2⟩ := remapKeep_some hra
      refine ⟨?_, ?_, ?_, d0, d1, d2⟩ <;> rw [hXlen] <;>
        [exact Nat.lt_succ_of_le (hbound _ m0);
          exact Nat.lt_succ_of_le (hbound _ m1);
          exact Nat.lt_succ_of_le (hbound _ m2)]
    rw [show (x0 :: xs) = chunk3 uc from hX.symm]
    unfold RemoveDoubles
    simp only [hscan2, hid]

/-- C4: every entry of the post-dedup triangle buffer is a valid index into
the unique coordinate buffer, the three corner indices of each surviving
triangle are pairwise distinct, and the surviving triangles are exactly the
non-degenerate remapped input triangles in their original order (a
`filterMap` of the input triple list through the `newIndex` map). -/
theorem removeDoubles_valid_indices_nondegenerate_order
    (coords : List CoordWithIndex) (tris : List Nat) (uc : List Int)
    (tris' : List Nat)
    (h : RemoveDoubles tris coords = some (uc, tris')) :
    (∀ x ∈ tris', x < uc.length / 3) ∧
    (∀ t ∈ tris3 tris', t.1 ≠ t.2.1 ∧ t.1 ≠ t.2.2 ∧ t.2.1 ≠ t.2.2) ∧
    (∃ ni, dedupScan coords = some (uc, ni) ∧
      tris3 tris' = (tris3 tris).filterMap (remapKeep ni)) := by
  obtain ⟨ni, hscan, hre⟩ := RemoveDoubles_inv h
  obtain ⟨hchain, hflat, m, hlen, hbound, hnlen⟩ := dedupScan_spec hscan
  have htri := reindexTris_triples ni tris tris' hre
  refine ⟨?_, ?_, ni, hscan, htri⟩
  · intro x hx
    have hmem := reindexTris_mem ni tris tris' hre x hx
    have := hbound x hmem
    omega
  · intro t ht
    rw [htri] at ht
    obtain ⟨a, _, hra⟩ := List.mem_filterMap.1 ht
    obtain ⟨_, _, _, d0, d1, d2⟩ := remapKeep_some hra
    exact ⟨d0, d1, d2⟩

theorem removeDoubles_sorted_unique_fixpoint_witness :
    List.Chain' vlt (chunk3 [0, 0, 0, 0, 1, 0, 1, 0, 0, 1, 1, 0]) ∧
    List.Pairwise (fun a b => a ≠ b)
      (chunk3 [0, 0, 0, 0, 1, 0, 1, 0, 0, 1, 1, 0]) ∧
    RemoveDoubles [3, 2, 0, 3, 2, 1]
      (tagFrom 0 (chunk3 [0, 0, 0, 0, 1, 0, 1, 0, 0, 1, 1, 0])) =
    some ([0, 0, 0, 0, 1, 0, 1, 0, 0, 1, 1, 0], [3, 2, 0, 3, 2, 1]) :=
  removeDoubles_sorted_unique_fixpoint
    [⟨⟨0, 1, 0⟩, 0⟩, ⟨⟨1, 0, 0⟩, 1⟩, ⟨⟨1, 1, 0⟩, 2⟩, ⟨⟨1, 0, 0⟩, 3⟩,
      ⟨⟨0, 0, 0⟩, 4⟩]
    [2, 3, 4, 1, 2, 3, 2, 1, 0] [0, 0, 0, 0, 1, 0, 1, 0, 0, 1, 1, 0]
    [3, 2, 0, 3, 2, 1] (by decide)

theorem removeDoubles_valid_indices_nondegenerate_order_witness :
    (∀ x ∈ [0, 2, 1], x < ([0, 0, 0, 0, 0, 1, 1, 0, 0] : List Int).length / 3) ∧
    (∀ t ∈ tris3 [0, 2, 1], t.1 ≠ t.2.1 ∧ t.1 ≠ t.2.2 ∧ t.2.1 ≠ t.2.2) ∧
    (∃ ni, dedupScan [⟨⟨0, 0, 0⟩, 0⟩, ⟨⟨1, 0, 0⟩, 1⟩, ⟨⟨0, 0, 1⟩, 2⟩] =
        some ([0, 0, 0, 0, 0, 1, 1, 0, 0], ni) ∧
      tris3 [0, 2, 1] = (tris3 [0, 1, 2]).filterMap (remapKeep ni)) :=
  removeDoubles_valid_indices_nondegenerate_order
    [⟨⟨0, 0, 0⟩, 0⟩, ⟨⟨1, 0, 0⟩, 1⟩, ⟨⟨0, 0, 1⟩, 2⟩]
    [0, 1, 2] [0, 0, 0, 0, 0, 1, 1, 0, 0] [0, 2, 1] (by decide)

theorem buildUnique_isSome :
    ∀ (rest : List CoordWithIndex) (prev : CoordWithIndex) (curInd : Nat)
      (acc : List Int) (ni : List Nat),
      (∀ c ∈ rest, c.index < ni.length) →
      ∃ r, buildUnique prev rest curInd acc ni = some r
  | [], prev, curInd, acc, ni => fun _ => ⟨(acc, ni), rfl⟩
  | c :: rest', prev, curInd, acc, ni => by
    intro hb
    have hc : c.index < ni.length := hb c (List.mem_cons_self _ _)
    rcases hne : cwiNeB c prev with _ | _
    · obtain ⟨ni', hni'⟩ := setOpt_isSome_of_lt ni c.index curInd hc
      have hlen := setOpt_length ni c.index curInd ni' hni'
      obtain ⟨r, hr⟩ := buildUnique_isSome rest' c curInd acc ni'
        (fun d hd => by rw [hlen]; exact hb d (List.mem_cons_of_mem _ hd))
      exact ⟨r, by simp only [buildUnique, hne, Bool.false_eq_true, if_false,
        hni', hr]⟩
    · obtain ⟨ni', hni'⟩ := setOpt_isSome_of_lt ni c.index (curInd + 1) hc
      have hlen := setOpt_length ni c.index (curInd + 1) ni' hni'
      obtain ⟨r, hr⟩ := buildUnique_isSome rest' c (curInd + 1)
        (acc ++ [c.data.x, c.data.y, c.data.z]) ni'
        (fun d hd => by rw [hlen]; exact hb d (List.mem_cons_of_mem _ hd))
      exact ⟨r, by simp only [buildUnique, hne, if_true, hni', hr]⟩

theorem reindexTris_isSome :
    ∀ (tris : List Nat) (ni : List Nat),
      tris.length % 3 = 0 →
      (∀ t ∈ tris, t < ni.length) →
      ∃ out, reindexTris ni tris = some out
  | [], ni => fun _ _ => ⟨[], rfl⟩
  | [a], ni => by
    intro hlen
    simp at hlen
  | [a, b], ni => by
    intro hlen
    simp at hlen
  | t0 :: t1 :: t2 :: rest, ni => by
    intro hlen hb
    have g0 := List.getElem?_eq_getElem (hb t0 (by simp))
    have g1 := List.getElem?_eq_getElem (hb t1 (by simp))
    have g2 := List.getElem?_eq_getElem (hb t2 (by simp))
    obtain ⟨out, hout⟩ := reindexTris_isSome rest ni
      (by simp only [List.length_cons] at hlen; omega)
      (fun t ht => hb t (by simp [ht]))
    simp only [reindexTris, g0, g1, g2, hout]
    split <;> exact ⟨_, rfl⟩

/-- C8: `RemoveDoubles` on an empty raw coordinate stream still counts one
unique coordinate (`numUnique` starts at 1, so the unique buffer would be
resized to 3 entries), and then reads element 0 of the empty coordinate
vector and writes element 0 of the empty `newIndex` vector; in this total
embedding the out-of-bounds branch is taken (`none`), so the function is
only safe when at least one raw coordinate exists — and under the reader's
invariants (sequential index tags, in-range triangle corners, triangle list
length a multiple of 3) a nonempty coordinate stream always succeeds. -/
theorem removeDoubles_empty_unsafe :
    (∀ tris : List Nat, RemoveDoubles tris [] = none) ∧
    numUniqueOf (sortCoords []) = 1 ∧
    3 * numUniqueOf (sortCoords []) = 3 ∧
    (∀ (coords : List CoordWithIndex) (tris : List Nat),
      coords ≠ [] →
      (∀ i : Fin coords.length, (coords.get i).index = i.val) →
      (∀ t ∈ tris, t < coords.length) →
      tris.length % 3 = 0 →
      ∃ r, RemoveDoubles tris coords = some r) := by
  refine ⟨fun tris => rfl, rfl, rfl, ?_⟩
  intro coords tris hne hidx htb hmod
  rcases hs : sortCoords coords with _ | ⟨first, stail⟩
  · exfalso
    have := (sortCoords_perm coords).length_eq
    rw [hs] at this
    cases coords
    · exact hne rfl
    · simp at this
  · have hlc : coords.length = stail.length + 1 := by
      have := (sortCoords_perm coords).length_eq
      rw [hs] at this
      simpa using this.symm
    have hscan : ∃ p, dedupScan coords = some p := by
      unfold dedupScan
      simp only [hs, hlc, List.replicate_succ, setOpt]
      apply buildUnique_isSome
      intro c hc
      have hmem : c ∈ coords := (sortCoords_perm coords).mem_iff.1
        (by rw [hs]; exact List.mem_cons_of_mem _ hc)
      obtain ⟨i, hi⟩ := List.mem_iff_get.1 hmem
      have hci := hidx i
      rw [hi] at hci
      have hil := i.isLt
      simp only [List.length_cons, List.length_replicate]
      omega
    obtain ⟨⟨uc, ni⟩, hscan⟩ := hscan
    obtain ⟨_, _, m, _, _, hnlen⟩ := dedupScan_spec hscan
    obtain ⟨out, hout⟩ := reindexTris_isSome tris ni hmod
      (fun t ht => by rw [hnlen]; exact htb t ht)
    exact ⟨(uc, out), by unfold RemoveDoubles; simp only [hscan, hout]⟩

theorem removeDoubles_empty_unsafe_witness :
    ∃ r, RemoveDoubles [] [⟨⟨0, 0, 0⟩, 0⟩] = some r :=
  removeDoubles_empty_unsafe.2.2.2 [⟨⟨0, 0, 0⟩, 0⟩] [] (by decide)
    (by decide) (by decide) (by decide)

/-- A binary file with one triangle whose corners (0,0,0), (0,0,0), (1,1,1)
weld to two unique vertices, so the triangle is degenerate and dropped. -/
def fileC1 : StlFile :=
  ⟨true, strEmpty, [],
    ⟨true, some 1, [⟨⟨0, 0, 1⟩, ⟨0, 0, 0⟩, ⟨0, 0, 0⟩, ⟨1, 1, 1⟩⟩]⟩⟩

/-- Same content as `fileC1`, used for the normal-buffer claim. -/
def fileC2 : StlFile :=
  ⟨true, strEmpty, [],
    ⟨true, some 1, [⟨⟨0, 0, 1⟩, ⟨0, 0, 0⟩, ⟨0, 0, 0⟩, ⟨1, 1, 1⟩⟩]⟩⟩

/-- A binary file whose 4-byte triangle-count field is zero. -/
def fileC5 : StlFile := ⟨true, strEmpty, [], ⟨true, some 0, []⟩⟩

/-- C1 (code bug): the binary reader pushes the solid-range boundaries
`{0, trisOut.size()/3}` before `RemoveDoubles` runs and never adjusts them,
so after a degenerate triangle is dropped the final solid-range list is
`[0, 1]` while the final triangle buffer holds 0 triangles — the last
boundary is not the post-dedup triangle count (the repository's own tests
in `tests/remove_doubles.t.cpp` require the adjusted value). -/
theorem readBinary_keeps_stale_solid_ranges :
    ReadStlFile_BINARY emptyBufs fileC1 =
      RRes.ok (⟨[0, 0, 0, 1, 1, 1], [0, 0, 1], [], [0, 1]⟩, true) ∧
    ¬ (([0, 1] : List Nat).getLast? =
        some (([] : List Nat).length / 3)) := by
  decide

/-- C2 (code bug): the normal buffer is never compacted when `RemoveDoubles`
drops a degenerate triangle: on `fileC2` the reader returns 1 normal
(3 entries) alongside 0 surviving triangles, so
`len(normalsOut)/3 = len(trisOut)/3` fails (the repository's own tests in
`tests/remove_doubles.t.cpp` require the compacted normal buffer). -/
theorem readBinary_normals_not_compacted :
    ReadStlFile_BINARY emptyBufs fileC2 =
      RRes.ok (⟨[0, 0, 0, 1, 1, 1], [0, 0, 1], [], [0, 1]⟩, true) ∧
    ¬ (([0, 0, 1] : List Int).length / 3 = ([] : List Nat).length / 3) := by
  decide

/-- C5 (code bug): a binary file with triangle-count field 0 hands an empty
coordinate list to `RemoveDoubles`, which then reads element 0 of the empty
coordinate vector and writes element 0 of the empty `newIndex` vector —
undefined behaviour, not a successful read with empty buffers. -/
theorem readBinary_zero_tris_oob :
    ReadStlFile_BINARY emptyBufs fileC5 = RRes.oob := by decide

theorem readAscii_ok_true (atof : String → Int) (bufs : Buffers)
    (f : StlFile) (r : Buffers) (b : Bool)
    (h : ReadStlFile_ASCII atof bufs f = RRes.ok (r, b)) : b = true := by
  unfold ReadStlFile_ASCII at h
  by_cases ho : f.openable = false
  · rw [if_pos ho] at h
    cases h
  · rw [if_neg ho] at h
    rcases hL : asciiLoop atof asciiInit f.lines with e | st <;>
      simp only [hL] at h
    · cases h
    · rcases hR : RemoveDoubles st.tris st.cwi with _ | ⟨uc, tris'⟩ <;>
        simp only [hR] at h
      · cases h
      · simp only [RRes.ok.injEq, Prod.mk.injEq] at h
        exact h.2.symm

theorem readBinary_ok_true (bufs : Buffers) (f : StlFile) (r : Buffers)
    (b : Bool) (h : ReadStlFile_BINARY bufs f = RRes.ok (r, b)) :
    b = true := by
  unfold ReadStlFile_BINARY at h
  by_cases ho : f.openable = false
  · rw [if_pos ho] at h
    cases h
  · rw [if_neg ho] at h
    by_cases hh : f.bin.hasHeader = false
    · rw [if_pos hh] at h
      cases h
    · rw [if_neg hh] at h
      rcases hc : f.bin.countField with _ | numTris <;> simp only [hc] at h
      · cases h
      · rcases hB : binLoop numTris f.bin.records ([], [], []) with e | st <;>
          simp only [hB] at h
        · cases h
        · obtain ⟨normals, cwi, tris⟩ := st
          rcases hR : RemoveDoubles tris cwi with _ | ⟨uc, tris'⟩ <;>
            simp only [hR] at h
          · cases h
          · simp only [RRes.ok.injEq, Prod.mk.injEq] at h
            exact h.2.symm

theorem readAscii_openFail (atof : String → Int) (bufs : Buffers)
    (f : StlFile) (ho : f.openable = false) :
    ReadStlFile_ASCII atof bufs f = RRes.err StlError.openFail := by
  unfold ReadStlFile_ASCII
  rw [if_pos ho]

theorem readBinary_openFail (bufs : Buffers) (f : StlFile)
    (ho : f.openable = false) :
    ReadStlFile_BINARY bufs f = RRes.err StlError.openFail := by
  unfold ReadStlFile_BINARY
  rw [if_pos ho]

theorem readStl_openFail (atof : String → Int) (bufs : Buffers)
    (f : StlFile) (ho : f.openable = false) :
    ReadStlFile atof bufs f = RRes.err StlError.openFail := by
  unfold ReadStlFile STLFileHasASCIIFormat
  rw [if_pos ho]

/-- C9: in the default configuration the readers never return `false`:
whenever any of the three reading functions returns normally the returned
boolean is `true`, and failures (such as an unopenable file) are signalled
by a thrown error instead. -/
theorem readers_never_return_false :
    (∀ (atof : String → Int) (bufs : Buffers) (f : StlFile) (r : Buffers)
        (b : Bool),
      ReadStlFile_ASCII atof bufs f = RRes.ok (r, b) → b = true) ∧
    (∀ (bufs : Buffers) (f : StlFile) (r : Buffers) (b : Bool),
      ReadStlFile_BINARY bufs f = RRes.ok (r, b) → b = true) ∧
    (∀ (atof : String → Int) (bufs : Buffers) (f : StlFile) (r : Buffers)
        (b : Bool),
      ReadStlFile atof bufs f = RRes.ok (r, b) → b = true) ∧
    (∀ (atof : String → Int) (bufs : Buffers) (f : StlFile),
      f.openable = false →
      ReadStlFile_ASCII atof bufs f = RRes.err StlError.openFail ∧
      ReadStlFile_BINARY bufs f = RRes.err StlError.openFail ∧
      ReadStlFile atof bufs f = RRes.err StlError.openFail) := by
  refine ⟨readAscii_ok_true, readBinary_ok_true, ?_, ?_⟩
  · intro atof bufs f r b h
    unfold ReadStlFile at h
    rcases hS : STLFileHasASCIIFormat f with e | b0 <;> simp only [hS] at h
    · cases h
    · rcases b0 with _ | _
      · exact readBinary_ok_true bufs f r b h
      · exact readAscii_ok_true atof bufs f r b h
  · intro atof bufs f ho
    exact ⟨readAscii_openFail atof bufs f ho, readBinary_openFail bufs f ho,
      readStl_openFail atof bufs f ho⟩

/-- A file that cannot be opened. -/
def fileNoOpen : StlFile := ⟨false, strEmpty, [], ⟨true, some 0, []⟩⟩

theorem readers_never_return_false_witness :
    ReadStlFile_ASCII atof0 emptyBufs fileNoOpen =
      RRes.err StlError.openFail ∧
    ReadStlFile_BINARY emptyBufs fileNoOpen = RRes.err StlError.openFail ∧
    ReadStlFile atof0 emptyBufs fileNoOpen = RRes.err StlError.openFail :=
  readers_never_return_false.2.2.2 atof0 emptyBufs fileNoOpen rfl

/-- C10: both readers clear all four output containers before parsing
(lines 300-303 and 409-412), so for a fixed input file the result is
identical whatever the initial contents of the caller's containers were. -/
theorem readers_ignore_initial_buffers :
    ∀ (atof : String → Int) (f : StlFile) (b1 b2 : Buffers),
      ReadStlFile_ASCII atof b1 f = ReadStlFile_ASCII atof b2 f ∧
      ReadStlFile_BINARY b1 f = ReadStlFile_BINARY b2 f :=
  fun _ _ _ _ => ⟨rfl, rfl⟩

/-- C7: the format sniffer fails with an IO error iff the file cannot be
opened; otherwise it answers `true` exactly when the lowercased first
whitespace-delimited token of the file is the literal `"solid"`; and
`ReadStlFile` dispatches to the ASCII reader exactly when the sniffer
answers `true`, to the binary reader when it answers `false`, and
propagates a sniffer error. -/
theorem sniffer_and_dispatch :
    ∀ (atof : String → Int) (bufs : Buffers) (f : StlFile),
      (f.openable = false →
        STLFileHasASCIIFormat f = Except.error StlError.openFail) ∧
      (f.openable = true →
        (STLFileHasASCIIFormat f = Except.ok true ↔
          asciiLower f.firstToken = kwSolid)) ∧
      (STLFileHasASCIIFormat f = Except.ok true →
        ReadStlFile atof bufs f = ReadStlFile_ASCII atof bufs f) ∧
      (STLFileHasASCIIFormat f = Except.ok false →
        ReadStlFile atof bufs f = ReadStlFile_BINARY bufs f) ∧
      (∀ e, STLFileHasASCIIFormat f = Except.error e →
        ReadStlFile atof bufs f = RRes.err e) := by
  intro atof bufs f
  refine ⟨?_, ?_, ?_, ?_, ?_⟩
  · intro ho
    unfold STLFileHasASCIIFormat
    rw [if_pos ho]
  · intro ho
    unfold STLFileHasASCIIFormat
    rw [if_neg (by simp [ho])]
    constructor
    · intro h
      simp only [Except.ok.injEq, decide_eq_true_eq] at h
      exact h
    · intro h
      simp only [Except.ok.injEq, decide_eq_true_eq]
      exact h
  · intro h
    unfold ReadStlFile
    simp only [h]
  · intro h
    unfold ReadStlFile
    simp only [h]
  · intro e h
    unfold ReadStlFile
    simp only [h]

def strSOLID : String := "SOLID"

/-- A file whose first token is `"SOLID"` (upper case), so the sniffer must
lowercase it before comparing. -/
def fileC7 : StlFile :=
  ⟨true, strSOLID, [], ⟨true, some 0, []⟩⟩

theorem sniffer_and_dispatch_witness :
    ReadStlFile atof0 emptyBufs fileC7 = ReadStlFile_ASCII atof0 emptyBufs
      fileC7 :=
  (sniffer_and_dispatch atof0 emptyBufs fileC7).2.2.1
    (((sniffer_and_dispatch atof0 emptyBufs fileC7).2.1 rfl).mpr (by decide))

/-- Whether a line-processing result is a thrown parse error. -/
def isErrorRes (r : Except StlError AsciiState) : Bool :=
  match r with
  | Except.error _ => true
  | Except.ok _ => false

/-- The exact error conditions of the text decoder, on the token list the
extraction loop produced for one line: a `vertex` line with fewer than 4
extracted tokens; a `facet` line with fewer than 5 extracted tokens or whose
second token is not `normal`; an `outer` line without a second token equal
to `loop`; an `endfacet` when the per-facet vertex counter is not 3. -/
def asciiErrCond (toks : List String) (nfv : Nat) : Prop :=
  (toks.head? = some kwVertex ∧ toks.length < 4) ∨
  (toks.head? = some kwFacet ∧
    (toks.length < 5 ∨ toks.getD 1 strEmpty ≠ kwNormal)) ∨
  (toks.head? = some kwOuter ∧
    (toks.length < 2 ∨ toks.getD 1 strEmpty ≠ kwLoop)) ∨
  (toks.head? = some kwEndfacet ∧ nfv ≠ 3)

instance (toks : List String) (nfv : Nat) :
    Decidable (asciiErrCond toks nfv) := by
  unfold asciiErrCond
  infer_instance

theorem processToks_error_iff (atof : String → Int) (st : AsciiState) :
    ∀ toks : List String,
      (isErrorRes (processToks atof st toks) = true ↔
        asciiErrCond toks st.numFaceVrts) ∧
      (∀ e, processToks atof st toks = Except.error e →
        errLineOf e = some st.lineCount) ∧
      (∀ tok rest, toks = tok :: rest →
        tok ∉ [kwVertex, kwFacet, kwOuter, kwEndfacet, kwSolid] →
        processToks atof st toks =
          Except.ok { st with lineCount := st.lineCount + 1 })
  | [] => by
    refine ⟨?_, ?_, ?_⟩
    · simp [processToks, isErrorRes, asciiErrCond]
    · intro e he
      simp only [processToks] at he
      cases he
    · intro tok rest heq
      cases heq
  | tok :: rest => by
    by_cases h1 : tok = kwVertex
    · subst h1
      by_cases hl : (kwVertex :: rest).length < 4
      · have hp : processToks atof st (kwVertex :: rest) =
            Except.error (StlError.vertexSpec st.lineCount) := by
          simp only [processToks, if_true]
          rw [if_pos hl]
        refine ⟨iff_of_true (by rw [hp]; rfl) (Or.inl ⟨rfl, hl⟩), ?_, ?_⟩
        · intro e he
          rw [hp] at he
          cases he
          rfl
        · intro tok2 rest2 heq hnin
          cases heq
          exact absurd (List.mem_cons_self _ _) hnin
      · have hp : isErrorRes (processToks atof st (kwVertex :: rest)) =
            false := by
          simp only [processToks, if_true]
          rw [if_neg hl]
          rfl
        refine ⟨iff_of_false (by simp [hp]) ?_, ?_, ?_⟩
        · rintro (⟨hh, hc⟩ | ⟨hh, hc⟩ | ⟨hh, hc⟩ | ⟨hh, hc⟩)
          · exact hl hc
          · simp only [List.head?_cons, Option.some.injEq] at hh
            exact absurd hh (by decide)
          · simp only [List.head?_cons, Option.some.injEq] at hh
            exact absurd hh (by decide)
          · simp only [List.head?_cons, Option.some.injEq] at hh
            exact absurd hh (by decide)
        · intro e he
          rw [he] at hp
          simp [isErrorRes] at hp
        · intro tok2 rest2 heq hnin
          cases heq
          exact absurd (List.mem_cons_self _ _) hnin
    · by_cases h2 : tok = kwFacet
      · subst h2
        by_cases hl : (kwFacet :: rest).length < 5
        · have hp : processToks atof st (kwFacet :: rest) =
              Except.error (StlError.triSpec st.lineCount) := by
            simp only [processToks, if_true]
            rw [if_neg h1, if_pos hl]
          refine ⟨iff_of_true (by rw [hp]; rfl)
            (Or.inr (Or.inl ⟨rfl, Or.inl hl⟩)), ?_, ?_⟩
          · intro e he
            rw [hp] at he
            cases he
            rfl
          · intro tok2 rest2 heq hnin
            cases heq
            exact absurd (by simp) hnin
        · by_cases hn : (kwFacet :: rest).getD 1 strEmpty ≠ kwNormal
          · have hp : processToks atof st (kwFacet :: rest) =
                Except.error (StlError.missingNormal st.lineCount) := by
              simp only [processToks, if_true]
              rw [if_neg h1, if_neg hl, if_pos hn]
            refine ⟨iff_of_true (by rw [hp]; rfl)
              (Or.inr (Or.inl ⟨rfl, Or.inr hn⟩)), ?_, ?_⟩
            · intro e he
              rw [hp] at he
              cases he
              rfl
            · intro tok2 rest2 heq hnin
              cases heq
              exact absurd (by simp) hnin
          · have hp : isErrorRes (processToks atof st (kwFacet :: rest)) =
                false := by
              simp only [processToks, if_true]
              rw [if_neg h1, if_neg hl, if_neg hn]
              rfl
            refine ⟨iff_of_false (by simp [hp]) ?_, ?_, ?_⟩
            · rintro (⟨hh, hc⟩ | ⟨hh, hc⟩ | ⟨hh, hc⟩ | ⟨hh, hc⟩)
              · simp only [List.head?_cons, Option.some.injEq] at hh
                exact absurd hh (by decide)
              · rcases hc with hc | hc
                · exact hl hc
                · exact hn hc
              · simp only [List.head?_cons, Option.some.injEq] at hh
                exact absurd hh (by decide)
              · simp only [List.head?_cons, Option.some.injEq] at hh
                exact absurd hh (by decide)
            · intro e he
              rw [he] at hp
              simp [isErrorRes] at hp
            · intro tok2 rest2 heq hnin
              cases heq
              exact absurd (by simp) hnin
      · by_cases h3 : tok = kwOuter
        · subst h3
          by_cases hc2 : (kwOuter :: rest).length < 2 ∨
              (kwOuter :: rest).getD 1 strEmpty ≠ kwLoop
          · have hp : processToks atof st (kwOuter :: rest) =
                Except.error (StlError.expectOuterLoop st.lineCount) := by
              simp only [processToks, if_true]
              rw [if_neg h1, if_neg h2, if_pos hc2]
            refine ⟨iff_of_true (by rw [hp]; rfl)
              (Or.inr (Or.inr (Or.inl ⟨rfl, hc2⟩))), ?_, ?_⟩
            · intro e he
              rw [hp] at he
              cases he
              rfl
            · intro tok2 rest2 heq hnin
              cases heq
              exact absurd (by simp) hnin
          · have hp : isErrorRes (processToks atof st (kwOuter :: rest)) =
                false := by
              simp only [processToks, if_true]
              rw [if_neg h1, if_neg h2, if_neg hc2]
              rfl
            refine ⟨iff_of_false (by simp [hp]) ?_, ?_, ?_⟩
            · rintro (⟨hh, hc⟩ | ⟨hh, hc⟩ | ⟨hh, hc⟩ | ⟨hh, hc⟩)
              · simp only [List.head?_cons, Option.some.injEq] at hh
                exact absurd hh (by decide)
              · simp only [List.head?_cons, Option.some.injEq] at hh
                exact absurd hh (by decide)
              · exact hc2 hc
              · simp only [List.head?_cons, Option.some.injEq] at hh
                exact absurd hh (by decide)
            · intro e he
              rw [he] at hp
              simp [isErrorRes] at hp
            · intro tok2 rest2 heq hnin
              cases heq
              exact absurd (by simp) hnin
        · by_cases h4 : tok = kwEndfacet
          · subst h4
            by_cases hnf : st.numFaceVrts ≠ 3
            · have hp : processToks atof st (kwEndfacet :: rest) =
                  Except.error (StlError.badVertexCount st.lineCount) := by
                simp only [processToks, if_true]
                rw [if_neg h1, if_neg h2, if_neg h3, if_pos hnf]
              refine ⟨iff_of_true (by rw [hp]; rfl)
                (Or.inr (Or.inr (Or.inr ⟨rfl, hnf⟩))), ?_, ?_⟩
              · intro e he
                rw [hp] at he
                cases he
                rfl
              · intro tok2 rest2 heq hnin
                cases heq
                exact absurd (by simp) hnin
            · have hp : isErrorRes (processToks atof st
                  (kwEndfacet :: rest)) = false := by
                simp only [processToks, if_true]
                rw [if_neg h1, if_neg h2, if_neg h3, if_neg hnf]
                rfl
              refine ⟨iff_of_false (by simp [hp]) ?_, ?_, ?_⟩
              · rintro (⟨hh, hc⟩ | ⟨hh, hc⟩ | ⟨hh, hc⟩ | ⟨hh, hc⟩)
                · simp only [List.head?_cons, Option.some.injEq] at hh
                  exact absurd hh (by decide)
                · simp only [List.head?_cons, Option.some.injEq] at hh
                  exact absurd hh (by decide)
                · simp only [List.head?_cons, Option.some.injEq] at hh
                  exact absurd hh (by decide)
                · exact hnf hc
              · intro e he
                rw [he] at hp
                simp [isErrorRes] at hp
              · intro tok2 rest2 heq hnin
                cases heq
                exact absurd (by simp) hnin
          · by_cases h5 : tok = kwSolid
            · subst h5
              have hp : isErrorRes (processToks atof st
                  (kwSolid :: rest)) = false := by
                simp only [processToks, if_true]
                rw [if_neg h1, if_neg h2, if_neg h3, if_neg h4]
                rfl
              refine ⟨iff_of_false (by simp [hp]) ?_, ?_, ?_⟩
              · rintro (⟨hh, hc⟩ | ⟨hh, hc⟩ | ⟨hh, hc⟩ | ⟨hh, hc⟩) <;>
                  (simp only [List.head?_cons, Option.some.injEq] at hh;
                    exact absurd hh (by decide))
              · intro e he
                rw [he] at hp
                simp [isErrorRes] at hp
              · intro tok2 rest2 heq hnin
                cases heq
                exact absurd (by simp) hnin
            · have hp : processToks atof st (tok :: rest) =
                  Except.ok { st with lineCount := st.lineCount + 1 } := by
                simp only [processToks]
                rw [if_neg h1, if_neg h2, if_neg h3, if_neg h4, if_neg h5]
              refine ⟨iff_of_false (by rw [hp]; simp [isErrorRes]) ?_,
                ?_, ?_⟩
              · rintro (⟨hh, hc⟩ | ⟨hh, hc⟩ | ⟨hh, hc⟩ | ⟨hh, hc⟩) <;>
                  (simp only [List.head?_cons, Option.some.injEq] at hh)
                · exact h1 hh
                · exact h2 hh
                · exact h3 hh
                · exact h4 hh
              · intro e he
                rw [hp] at he
                cases he
              · intro tok2 rest2 heq hnin
                cases heq
                exact hp

/-- C6 (amended): processing one text line raises a parse error exactly when
the token values the extraction loop dispatched on (`lineToks`: the line's
whitespace-delimited words, plus — when the line is empty or ends in
whitespace — one extra token holding the stale content of the reused token
buffer's next slot, empty only at the start of the file) satisfy one of the
four error conditions of `asciiErrCond`; every raised error carries the
current 1-based line counter; and a line whose leading extracted token
(which on a blank line is itself a stale token) is not one of the five
recognized keywords is ignored — no output buffer changes, only the line
counter and the token buffer advance — and is never an error. -/
theorem ascii_parse_errors_iff :
    ∀ (atof : String → Int) (st : AsciiState) (line : String),
      (isErrorRes (processLine atof st line) = true ↔
        asciiErrCond (lineToks st.tokens line) st.numFaceVrts) ∧
      (∀ e, processLine atof st line = Except.error e →
        errLineOf e = some st.lineCount) ∧
      (∀ tok rest, lineToks st.tokens line = tok :: rest →
        tok ∉ [kwVertex, kwFacet, kwOuter, kwEndfacet, kwSolid] →
        processLine atof st line = Except.ok
          { st with
              tokens := tokensAfter st.tokens (asciiWords line)
                (hasPhantom line),
              lineCount := st.lineCount + 1 }) := by
  intro atof st line
  obtain ⟨h1, h2, h3⟩ := processToks_error_iff atof
    { st with
        tokens := tokensAfter st.tokens (asciiWords line) (hasPhantom line) }
    (lineToks st.tokens line)
  exact ⟨h1, h2, h3⟩

def str1 : String := "1"
def str2 : String := "2"

/-- The raw line `"vertex 1 2 "`: three whitespace-delimited words plus a
trailing space. -/
def lineVertexTrailing : String := "vertex 1 2 "

/-- A text file consisting of that single line. -/
def fileC6 : StlFile :=
  ⟨true, kwSolid, [lineVertexTrailing], ⟨true, some 0, []⟩⟩

/-- C6 (counterexample): the line `"vertex 1 2 "` is a `vertex` line with
only three whitespace-delimited tokens, yet `ReadStlFile_ASCII` accepts the
file without any parse error — the stream extraction loop counts a fourth
(empty) token because the line ends in whitespace, so the `tokenCount < 4`
check passes and the missing coordinate is parsed from the empty string. -/
theorem asciiVertexTrailingSpace_counterexample :
    asciiWords lineVertexTrailing = [kwVertex, str1, str2] ∧
    ReadStlFile_ASCII atof0 emptyBufs fileC6 =
      RRes.ok (⟨[0, 0, 0], [], [], [0]⟩, true) := by
  decide

def lineOuterBad : String := "outer x"

def lineOuterLoop : String := "outer loop"

def lineOuterTrailing : String := "outer "

def lineVertexZeros : String := "vertex 0 0 0"

instance {e a : Type} [DecidableEq e] [DecidableEq a] :
    DecidableEq (Except e a)
  | Except.error e1, Except.error e2 => decidable_of_iff (e1 = e2) (by simp)
  | Except.error _, Except.ok _ => isFalse (fun h => by cases h)
  | Except.ok _, Except.error _ => isFalse (fun h => by cases h)
  | Except.ok a1, Except.ok a2 => decidable_of_iff (a1 = a2) (by simp)

example :
    asciiLoop atof0 asciiInit [lineOuterLoop, lineOuterTrailing] =
      Except.ok ⟨[], [], [], [], 0, 3, [kwOuter, kwLoop]⟩ := by
  decide

example :
    asciiLoop atof0 asciiInit [lineVertexZeros, strEmpty] =
      Except.error (StlError.vertexSpec 2) := by
  decide

theorem ascii_parse_errors_iff_witness :
    isErrorRes (processLine atof0 asciiInit lineOuterBad) = true :=
  ((ascii_parse_errors_iff atof0 asciiInit lineOuterBad).1).mpr (by decide)
